import Mathlib

set_option maxHeartbeats 1000000

/-!
Verification development for the mdstore storage utilities.

The Go sources are shallowly embedded as Lean definitions:

* `atomicWrite` embeds `AtomicWrite` from `atomic.go`.  The filesystem is a map
  from paths to file entries, and the fallible OS calls (`os.MkdirAll` via
  `EnsureDir`, `os.CreateTemp`, `File.Write`, `File.Close`, `os.Rename`) are
  driven by an explicit fault record: a `some e` entry makes the corresponding
  call fail with error `e` exactly where the Go code would observe the failure.
* `readYAML`, `writeYAML`, `appendYAML` embed the YAML helpers.  The external
  `gopkg.in/yaml.v3` marshaller is abstracted as a codec (an encoder/decoder
  pair with the library's round-trip guarantee), since its code is not part of
  this repository.
* `parseFrontmatter` / `renderFrontmatter` embed `frontmatter.go` character by
  character over `List Char`; `yaml.Marshal` inside `RenderFrontmatter` is
  again abstracted as the serialized output it produces.
* `unixWithLock` embeds the Unix `WithLock` (`lock_unix.go`) as the trace of
  events it performs (acquire, callback, unlock, close, return), with fault
  injection for `EnsureDir`, `os.OpenFile`, and `syscall.Flock`.  `winLoop`
  embeds the Windows retry-loop `WithLock` with an environment oracle that
  answers the `O_CREATE|O_EXCL` open attempts, `os.Stat`, and the lock-file
  age, and with explicit fuel standing for the (possibly unbounded) iteration
  count.
* `LockStep` is a transition system for N workers each running the critical
  section of `WithLock` concurrently: `flock(LOCK_EX)` is modelled as an
  atomic blocking acquire (its POSIX contract), and the callback is the
  read-increment-write of a shared counter from the spec's lock test.
-/

/-- A file system entry: the file is absent, holds data `d`, or reading the
path yields an I/O error `e` (permission failure etc., anything other than
non-existence). -/
inductive FileEntry (δ ε : Type) where
  | missing
  | content (d : δ)
  | ioError (e : ε)
deriving DecidableEq

/-- The file system: a map from paths to entries.  File payloads are the
abstract type `δ` (Go `[]byte`), errors are `ε` (Go `error`). -/
def FSys (δ ε : Type) : Type := String → FileEntry δ ε

/-- Point update of the file system (create / overwrite / remove a file). -/
def updFS {δ ε : Type} (fs : FSys δ ε) (p : String) (v : FileEntry δ ε) : FSys δ ε :=
  fun q => if q = p then v else fs q

/-- Fault model for `AtomicWrite`: each field makes the corresponding OS call
inside `AtomicWrite` fail with the given error; `writtenOnFail` is the partial
payload left in the temporary file when `tmp.Write` fails midway. -/
structure WriteFaults (ε δ : Type) where
  ensureDirErr : Option ε
  createTempErr : Option ε
  writeErr : Option ε
  writtenOnFail : δ
  closeErr : Option ε
  renameErr : Option ε

/-- All OS calls inside `AtomicWrite` succeed. -/
def WriteFaults.clean {ε δ : Type} (flt : WriteFaults ε δ) : Prop :=
  flt.ensureDirErr = none ∧ flt.createTempErr = none ∧ flt.writeErr = none ∧
    flt.closeErr = none ∧ flt.renameErr = none

/-- Embedding of `AtomicWrite` (atomic.go:12-35).  `tmpName` is the fresh name
chosen by `os.CreateTemp` (which creates the file empty, modelled by `dInit`).
Mirrors the Go control flow exactly: `EnsureDir`; `CreateTemp`; `tmp.Write`
(on failure: `tmp.Close()`, `os.Remove(tmpName)`, return the error);
`tmp.Close` (on failure: `os.Remove(tmpName)`, return the error);
`os.Rename(tmpName, path)` (on failure the temp file is left behind).
Returns the resulting file system and the returned Go error. -/
def atomicWrite {δ ε : Type} (flt : WriteFaults ε δ) (fs : FSys δ ε) (path : String)
    (data : δ) (tmpName : String) (dInit : δ) : FSys δ ε × Option ε :=
  match flt.ensureDirErr with
  | some e => (fs, some e)
  | none =>
    match flt.createTempErr with
    | some e => (fs, some e)
    | none =>
      let fs1 := updFS fs tmpName (.content dInit)
      match flt.writeErr with
      | some e =>
        (updFS (updFS fs1 tmpName (.content flt.writtenOnFail)) tmpName .missing, some e)
      | none =>
        let fs2 := updFS fs1 tmpName (.content data)
        match flt.closeErr with
        | some e => (updFS fs2 tmpName .missing, some e)
        | none =>
          match flt.renameErr with
          | some e => (fs2, some e)
          | none => (updFS (updFS fs2 tmpName .missing) path (.content data), none)

/-- Abstraction of the external `gopkg.in/yaml.v3` marshaller for list-shaped
documents: `enc` is `yaml.Marshal` on a `[]T` value (which may fail on
non-serializable values), `dec` is `yaml.Unmarshal` into a `[]T` destination,
and `roundtrip` is the library's guarantee that unmarshalling a marshalled
value restores it. -/
structure YamlCodec (α δ ε : Type) where
  enc : List α → Except ε δ
  dec : δ → Except ε (List α)
  roundtrip : ∀ l d, enc l = Except.ok d → dec d = Except.ok l

/-- Embedding of `ReadYAML` (yaml helpers, lines 15-25): `os.ReadFile`, then
if the file does not exist return `nil` leaving the destination (`dest0`) as
supplied; any other read error is returned; otherwise `yaml.Unmarshal`
(abstracted by `dec`) produces the result or its error. -/
def readYAML {δ ε σ : Type} (dec : δ → Except ε σ) (fs : FSys δ ε) (path : String)
    (dest0 : σ) : Except ε σ :=
  match fs path with
  | .missing => .ok dest0
  | .ioError e => .error e
  | .content d => dec d

/-- Embedding of `WriteYAML` (yaml helpers, lines 28-35): `yaml.Marshal`, then
`AtomicWrite` of the result. -/
def writeYAML {α δ ε : Type} (c : YamlCodec α δ ε) (flt : WriteFaults ε δ)
    (fs : FSys δ ε) (path : String) (src : List α) (tmpName : String) (dInit : δ) :
    FSys δ ε × Option ε :=
  match c.enc src with
  | .error e => (fs, some e)
  | .ok d => atomicWrite flt fs path d tmpName dInit

/-- Embedding of `AppendYAML` (yaml helpers, lines 39-49): read the existing
slice (`var existing []T` starts as the empty list), propagate a read error
unchanged, append the item, and write the whole slice back. -/
def appendYAML {α δ ε : Type} (c : YamlCodec α δ ε) (flt : WriteFaults ε δ)
    (fs : FSys δ ε) (path : String) (item : α) (tmpName : String) (dInit : δ) :
    FSys δ ε × Option ε :=
  match readYAML c.dec fs path ([] : List α) with
  | .error e => (fs, some e)
  | .ok existing => writeYAML c flt fs path (existing ++ [item]) tmpName dInit

/-- Sequential `AppendYAML` calls, keeping the file system of each call. -/
def appendSeq {α δ ε : Type} (c : YamlCodec α δ ε) (flt : WriteFaults ε δ)
    (fs : FSys δ ε) (path : String) (items : List α) (tmpName : String) (dInit : δ) :
    FSys δ ε :=
  items.foldl (fun f it => (appendYAML c flt f path it tmpName dInit).1) fs

/-- A concrete codec instance (identity encoding) used to evaluate the YAML
layer on concrete inputs. -/
def idCodec : YamlCodec Nat (List Nat) Nat where
  enc := fun l => .ok l
  dec := fun d => .ok d
  roundtrip := fun _ _ h => by cases h; rfl

/-- A concrete codec whose encodings carry a leading tag, so that untagged
data is malformed and fails to decode — used to evaluate the failing-read
path on concrete inputs. -/
def tagCodec : YamlCodec Nat (List Nat) Nat where
  enc := fun l => .ok (0 :: l)
  dec := fun d => match d with
    | 0 :: l => .ok l
    | _ => .error 9
  roundtrip := fun _ _ h => by cases h; rfl

/-- Go's `unicode.IsSpace` (the Unicode `White_Space` property), used by
`strings.TrimSpace`. -/
def goIsSpace (c : Char) : Bool :=
  c == ' ' || c == '\t' || c == '\n' || c == '\x0b' || c == '\x0c' || c == '\r' ||
  c == '\u0085' || c == '\u00a0' || c == '\u1680' ||
  (0x2000 ≤ c.toNat && c.toNat ≤ 0x200a) ||
  c == '\u2028' || c == '\u2029' || c == '\u202f' || c == '\u205f' || c == '\u3000'

/-- Leading-whitespace trim (the left half of `strings.TrimSpace`). -/
def goTrimLeft (l : List Char) : List Char :=
  l.dropWhile goIsSpace

/-- Trailing-whitespace trim (the right half of `strings.TrimSpace`). -/
def goTrimRight (l : List Char) : List Char :=
  (l.reverse.dropWhile goIsSpace).reverse

/-- `strings.TrimSpace`. -/
def goTrimSpace (l : List Char) : List Char :=
  goTrimRight (goTrimLeft l)

/-- The frontmatter delimiter `"---"` (frontmatter.go). -/
def openDelim : List Char := ['-', '-', '-']

/-- The closing-delimiter search pattern `"\n---"` used by
`strings.Index(rest, "\n---")` in `ParseFrontmatter`. -/
def closePat : List Char := ['\n', '-', '-', '-']

/-- Index of the first occurrence of `pat` in a list (Go `strings.Index`;
`none` models the return value `-1`).  The `"---"` and `"\n---"` patterns
contain only ASCII bytes that cannot occur inside a multi-byte UTF-8
sequence, so the byte-level Go search and this character-level search
agree. -/
def findSub (pat : List Char) : List Char → Option Nat
  | [] => if pat.isPrefixOf ([] : List Char) then some 0 else none
  | c :: t => if pat.isPrefixOf (c :: t) then some 0 else (findSub pat t).map (· + 1)

/-- The newline-skipping snippet that `ParseFrontmatter` applies twice
(frontmatter.go:24-28 and 42-46): drop one leading `\n`, else one leading
`\r\n`, else keep the text unchanged. -/
def skipNewline (l : List Char) : List Char :=
  match l with
  | '\n' :: t => t
  | '\r' :: '\n' :: t => t
  | _ => l

/-- Embedding of `ParseFrontmatter` (frontmatter.go:15-48): trim the content,
require the `---` prefix (else return the full content as body), skip one
`\n` or `\r\n` after the opening delimiter, search for `"\n---"`; if absent
return the full content as body, else the metadata is everything before the
match and the body is everything after the four matched characters with one
`\n` or `\r\n` skipped. -/
def parseFrontmatter (content : List Char) : List Char × List Char :=
  let trimmed := goTrimSpace content
  if openDelim.isPrefixOf trimmed then
    let rest := skipNewline (trimmed.drop 3)
    match findSub closePat rest with
    | none => ([], content)
    | some i => (rest.take i, skipNewline (rest.drop (i + 4)))
  else ([], content)

/-- Embedding of `RenderFrontmatter` (frontmatter.go:52-67) after a successful
`yaml.Marshal`: `yamlBytes` stands for the marshaller's output.  The body is
appended only when non-empty, exactly as in the Go code (which is the same as
appending it unconditionally). -/
def renderFrontmatter (yamlBytes body : List Char) : List Char :=
  ['-', '-', '-', '\n'] ++ yamlBytes ++ ['-', '-', '-', '\n'] ++
    (if body = [] then [] else body)

/-- The lines of a text, split on `'\n'` — used to state, in the spec's own
vocabulary, when a text contains a line consisting of the delimiter. -/
def linesOf (l : List Char) : List (List Char) :=
  l.foldr
    (fun c acc =>
      if c = '\n' then [] :: acc
      else match acc with
        | [] => [[c]]
        | a :: r => (c :: a) :: r)
    [[]]

/-- Whether some line after the first consists of the three-hyphen delimiter
(with or without a trailing `'\r'` from a CRLF ending) — the spec's notion of
a closing delimiter line. -/
def hasClosingDelimLine (content : List Char) : Bool :=
  (linesOf content).tail.any (fun m => m == openDelim || m == openDelim ++ ['\r'])

/-- Events performed by a `WithLock` call, in order.  `callbackRun r` is the
execution of the caller's `fn` with its own result `r` (`none` = nil error);
`ret r` is `WithLock` returning `r` to the caller. -/
inductive LockEv (ε : Type) where
  | acquire
  | callbackRun (r : Option ε)
  | unlock
  | closeFd
  | removeLockFile
  | removeStale (i : Nat)
  | sleep (ms : Nat)
  | ret (r : Option ε)
deriving DecidableEq

/-- Fault model for the Unix `WithLock`: `EnsureDir`, `os.OpenFile`, and
`syscall.Flock(LOCK_EX)` each either succeed or fail with the given error. -/
structure UnixFaults (ε : Type) where
  ensureDirErr : Option ε
  openErr : Option ε
  flockErr : Option ε

/-- Embedding of the Unix `WithLock` (lock_unix.go:16-35) as the trace of
events it performs.  `fnErr` is the callback's own result.  On the success
path the deferred actions run in LIFO order after `fn` returns: the advisory
unlock (`defer Flock(LOCK_UN)`), then the descriptor close (`defer f.Close`).
When `Flock(LOCK_EX)` fails, the deferred `f.Close` still runs before the
error is returned; the callback never runs. -/
def unixWithLock {ε : Type} (flt : UnixFaults ε) (fnErr : Option ε) : List (LockEv ε) :=
  match flt.ensureDirErr with
  | some e => [.ret (some e)]
  | none =>
    match flt.openErr with
    | some e => [.ret (some e)]
    | none =>
      match flt.flockErr with
      | some e => [.closeFd, .ret (some e)]
      | none => [.acquire, .callbackRun fnErr, .unlock, .closeFd, .ret fnErr]

/-- The first acquisition error of the Unix `WithLock`, if any. -/
def UnixFaults.firstErr {ε : Type} (flt : UnixFaults ε) : Option ε :=
  match flt.ensureDirErr with
  | some e => some e
  | none =>
    match flt.openErr with
    | some e => some e
    | none => flt.flockErr

/-- `lockRetryInterval` in milliseconds (Windows lock, line 16). -/
def lockRetryIntervalMs : Nat := 50

/-- `lockTimeout` in milliseconds (Windows lock, line 17). -/
def lockTimeoutMs : Nat := 10000

/-- `staleLockAge` in milliseconds (Windows lock, line 18). -/
def staleLockAgeMs : Nat := 30000

/-- Environment oracle for the Windows retry loop, answering attempt `i`:
does `os.OpenFile(O_CREATE|O_EXCL)` succeed, does `os.Stat` of the lock file
succeed, and what age (milliseconds since `ModTime`) does it report?  The
oracle models the other processes that own or abandon the lock file. -/
structure WinEnv where
  openOk : Nat → Bool
  statOk : Nat → Bool
  ageMs : Nat → Nat

/-- Embedding of the Windows `WithLock` retry loop (retry-loop source,
lines 31-53), producing the trace of events.  Arguments beyond the oracle:
the distinguished timeout error `te` (`fmt.Errorf` at line 50), the
callback's result `fnErr`, the remaining loop `fuel` (the Go loop is
unbounded; an empty trace with no `ret` models running out of fuel), the
attempt counter `i`, the current time `now`, and the `deadline` in ms.
One iteration: on a successful exclusive create, run `fn` and remove the
lock file (`defer os.Remove`) before returning `fn`'s result; else if
`os.Stat` succeeds and the age strictly exceeds `staleLockAge`, remove the
stale lock and `continue` immediately (no sleep, no deadline test); else if
`now` is past `deadline`, return the timeout error; else sleep 50 ms and
retry. -/
def winLoop {ε : Type} (env : WinEnv) (te : ε) (fnErr : Option ε) :
    Nat → Nat → Nat → Nat → List (LockEv ε)
  | 0, _, _, _ => []
  | fuel + 1, i, now, deadline =>
    if env.openOk i then
      [.acquire, .callbackRun fnErr, .removeLockFile, .ret fnErr]
    else if env.statOk i = true ∧ staleLockAgeMs < env.ageMs i then
      .removeStale i :: winLoop env te fnErr fuel (i + 1) now deadline
    else if deadline < now then
      [.ret (some te)]
    else
      .sleep lockRetryIntervalMs :: winLoop env te fnErr fuel (i + 1)
        (now + lockRetryIntervalMs) deadline

/-- The Windows `WithLock` entry: `EnsureDir` first (propagating its error),
then the retry loop with the deadline `now + lockTimeout`. -/
def winWithLock {ε : Type} (env : WinEnv) (edErr : Option ε) (te : ε)
    (fnErr : Option ε) (fuel now : Nat) : List (LockEv ε) :=
  match edErr with
  | some e => [.ret (some e)]
  | none => winLoop env te fnErr fuel 0 now (now + lockTimeoutMs)

/-- Whether an event is an execution of the caller's callback. -/
def isCallbackEv {ε : Type} : LockEv ε → Bool
  | .callbackRun _ => true
  | _ => false

/-- Whether a trace contains an execution of the caller's callback. -/
def hasCallback {ε : Type} (t : List (LockEv ε)) : Bool := t.any isCallbackEv

/-- Phase of one worker running `WithLock(dir, fn)` in the spec's lock test:
`start` — before the lock is granted; `locked` — `flock(LOCK_EX)` granted,
callback begun (the shared counter file has been read); `wrote` — the
callback has incremented and written the counter, lock not yet released;
`done` — `flock(LOCK_UN)` executed and `WithLock` returned. -/
inductive WPhase where
  | start
  | locked
  | wrote
  | done
deriving DecidableEq

/-- Global state of `n` workers (processes or goroutines) contending on one
directory's `.lock`: each worker's phase, the current owner of the kernel's
exclusive advisory lock, and the shared counter file's value. -/
structure LockSys (n : Nat) where
  phase : Fin n → WPhase
  holder : Option (Fin n)
  counter : Nat

/-- Initial state: every worker is about to call `WithLock`, the lock is
free, the counter file holds 0. -/
def initSys (n : Nat) : LockSys n := ⟨fun _ => WPhase.start, none, 0⟩

/-- Worker `w` is inside its callback — the critical section between the
grant of `flock(LOCK_EX)` and the release. -/
def inCS {n : Nat} (s : LockSys n) (w : Fin n) : Prop :=
  s.phase w = WPhase.locked ∨ s.phase w = WPhase.wrote

/-- Interleaving semantics of `n` concurrent `WithLock` calls on one
directory.  `acquire` models `syscall.Flock(fd, LOCK_EX)` completing: the
kernel grants the exclusive advisory lock only when nobody holds it (a
blocked caller simply has no enabled step until then).  `work` is the
callback body from the spec's lock test: increment the counter read at
acquisition and write it back.  `release` is the deferred
`Flock(LOCK_UN)` after which `WithLock` returns. -/
inductive LockStep {n : Nat} : LockSys n → LockSys n → Prop where
  | acquire (s : LockSys n) (w : Fin n) (h1 : s.phase w = WPhase.start)
      (h2 : s.holder = none) :
      LockStep s ⟨Function.update s.phase w WPhase.locked, some w, s.counter⟩
  | work (s : LockSys n) (w : Fin n) (h1 : s.phase w = WPhase.locked) :
      LockStep s ⟨Function.update s.phase w WPhase.wrote, s.holder, s.counter + 1⟩
  | release (s : LockSys n) (w : Fin n) (h1 : s.phase w = WPhase.wrote) :
      LockStep s ⟨Function.update s.phase w WPhase.done, none, s.counter⟩

/-- Reachability from the initial state. -/
def SysReach (n : Nat) (s : LockSys n) : Prop :=
  Relation.ReflTransGen LockStep (initSys n) s

/-- Contribution of a worker's phase to the shared counter: 1 once its
increment has been written. -/
def phaseCnt : WPhase → Nat
  | WPhase.wrote => 1
  | WPhase.done => 1
  | _ => 0

/-- Progress rank of a phase. -/
def phaseRank : WPhase → Nat
  | WPhase.start => 0
  | WPhase.locked => 1
  | WPhase.wrote => 2
  | WPhase.done => 3

/-- Total progress of a state: every step increases it by exactly one and it
is bounded by `3 * n`, so every execution is finite. -/
def sumRank {n : Nat} (s : LockSys n) : Nat :=
  ∑ w : Fin n, phaseRank (s.phase w)

/-- The inductive invariant: a worker is in the critical section exactly when
it owns the advisory lock, and the counter equals the number of workers whose
increment has been written. -/
def SysInv {n : Nat} (s : LockSys n) : Prop :=
  (∀ w, inCS s w ↔ s.holder = some w) ∧
  s.counter = ∑ w : Fin n, phaseCnt (s.phase w)

section YamlLemmas

/-- One successful `appendYAML` stores the encoding of `existing ++ [item]`
at `path`. -/
theorem appendYAML_ok {α δ ε : Type} (c : YamlCodec α δ ε) (flt : WriteFaults ε δ)
    (fs : FSys δ ε) (path : String) (item : α) (tmpName : String) (dInit : δ)
    (l : List α) (d : δ) (hc : flt.clean)
    (hr : readYAML c.dec fs path ([] : List α) = .ok l)
    (he : c.enc (l ++ [item]) = .ok d) :
    appendYAML c flt fs path item tmpName dInit =
      (updFS (updFS (updFS (updFS fs tmpName (.content dInit)) tmpName (.content d))
        tmpName .missing) path (.content d), none) := by
  obtain ⟨h1, h2, h3, h4, h5⟩ := hc
  simp only [appendYAML, writeYAML, atomicWrite, hr, he, h1, h2, h3, h4, h5]

/-- After a successful `appendYAML`, reading the path back yields
`existing ++ [item]`. -/
theorem appendYAML_read {α δ ε : Type} (c : YamlCodec α δ ε) (flt : WriteFaults ε δ)
    (fs : FSys δ ε) (path : String) (item : α) (tmpName : String) (dInit : δ)
    (l : List α) (hc : flt.clean)
    (hr : readYAML c.dec fs path ([] : List α) = .ok l)
    (he : ∃ d, c.enc (l ++ [item]) = .ok d) :
    (appendYAML c flt fs path item tmpName dInit).2 = none ∧
    readYAML c.dec (appendYAML c flt fs path item tmpName dInit).1 path ([] : List α) =
      .ok (l ++ [item]) := by
  obtain ⟨d, he⟩ := he
  rw [appendYAML_ok c flt fs path item tmpName dInit l d hc hr he]
  refine ⟨rfl, ?_⟩
  have hpath : updFS (updFS (updFS (updFS fs tmpName (.content dInit)) tmpName
      (.content d)) tmpName .missing) path (FileEntry.content d) path = .content d := by
    simp [updFS]
  simp only [readYAML, hpath]
  exact c.roundtrip (l ++ [item]) d he

/-- `appendSeq` over any item list extends the stored sequence in order. -/
theorem appendSeq_read {α δ ε : Type} (c : YamlCodec α δ ε) (flt : WriteFaults ε δ)
    (hc : flt.clean) (path : String) (tmpName : String) (dInit : δ)
    (henc : ∀ l : List α, ∃ d, c.enc l = .ok d) :
    ∀ (items : List α) (fs : FSys δ ε) (l : List α),
      readYAML c.dec fs path ([] : List α) = .ok l →
      readYAML c.dec (appendSeq c flt fs path items tmpName dInit) path ([] : List α) =
        .ok (l ++ items) := by
  intro items
  induction items with
  | nil => intro fs l hr; simpa [appendSeq] using hr
  | cons it rest ih =>
    intro fs l hr
    have hstep := appendYAML_read c flt fs path it tmpName dInit l hc hr (henc (l ++ [it]))
    have : appendSeq c flt fs path (it :: rest) tmpName dInit =
        appendSeq c flt ((appendYAML c flt fs path it tmpName dInit).1) path rest
          tmpName dInit := by
      simp [appendSeq]
    rw [this]
    have := ih ((appendYAML c flt fs path it tmpName dInit).1) (l ++ [it]) hstep.2
    simpa using this

end YamlLemmas

section FrontmatterLemmas

/-- `skipNewline` only removes characters from the front. -/
theorem skipNewline_suffix (l : List Char) : skipNewline l <:+ l := by
  unfold skipNewline
  split
  · exact (List.suffix_cons _ _)
  · exact (List.suffix_cons _ _).trans (List.suffix_cons _ _)
  · exact List.suffix_refl _

/-- A successful `findSub` needs an occurrence: with no occurrence of `pat`
anywhere in `l`, the search returns `none` (Go `strings.Index` returns -1). -/
theorem findSub_eq_none (pat l : List Char) (h : ¬ pat <:+: l) : findSub pat l = none := by
  induction l with
  | nil =>
    unfold findSub
    rw [if_neg]
    intro hp
    exact h (List.IsPrefix.isInfix (List.isPrefixOf_iff_prefix.mp hp))
  | cons c t ih =>
    unfold findSub
    rw [if_neg, ih (fun hi => h (List.infix_cons hi))]
    · rfl
    · intro hp
      exact h (List.IsPrefix.isInfix (List.isPrefixOf_iff_prefix.mp hp))

/-- Trimming returns a contiguous slice of the original text. -/
theorem goTrimSpace_isInfix (l : List Char) : goTrimSpace l <:+: l := by
  have h1 : goTrimLeft l <:+ l := List.dropWhile_suffix _
  have h2 : goTrimRight (goTrimLeft l) <+: goTrimLeft l := by
    have hs : (goTrimLeft l).reverse.dropWhile goIsSpace <:+ (goTrimLeft l).reverse :=
      List.dropWhile_suffix _
    have := List.reverse_prefix.mpr hs
    simpa [goTrimRight] using this
  exact (List.IsPrefix.isInfix h2).trans (List.IsSuffix.isInfix h1)

/-- Dropping trailing whitespace after a whitespace-final character. -/
theorem goTrimRight_append_space (l : List Char) (c : Char) (hc : goIsSpace c = true) :
    goTrimRight (l ++ [c]) = goTrimRight l := by
  simp [goTrimRight, List.dropWhile_cons, hc]

/-- A list ending in a non-whitespace character is unchanged by trailing
trim. -/
theorem goTrimRight_of_getLast (l : List Char) (c : Char) (h : l.getLast? = some c)
    (hc : goIsSpace c = false) : goTrimRight l = l := by
  have hrev : l.reverse.head? = some c := by rw [List.head?_reverse, h]
  obtain ⟨t, ht⟩ : ∃ t, l.reverse = c :: t := by
    cases hl : l.reverse with
    | nil => rw [hl] at hrev; cases hrev
    | cons a t => rw [hl] at hrev; cases hrev; exact ⟨t, rfl⟩
  have hd : l.reverse.dropWhile goIsSpace = l.reverse := by
    rw [ht]
    simp [List.dropWhile_cons, hc]
  unfold goTrimRight
  rw [hd, List.reverse_reverse]

/-- Trailing trim does not reach across a suffix that is already trimmed and
non-empty. -/
theorem goTrimRight_append_keep (X B : List Char) (hB : goTrimRight B = B) (hne : B ≠ []) :
    goTrimRight (X ++ B) = X ++ B := by
  have hBrev : B.reverse.dropWhile goIsSpace = B.reverse := by
    have := congrArg List.reverse hB
    simpa [goTrimRight] using this
  obtain ⟨c, t, ht⟩ : ∃ c t, B.reverse = c :: t := by
    cases hl : B.reverse with
    | nil => exact absurd (by simpa using congrArg List.reverse hl) hne
    | cons a t => exact ⟨a, t, rfl⟩
  have hc : goIsSpace c = false := by
    rw [ht] at hBrev
    by_contra hcc
    rw [List.dropWhile_cons, eq_true_of_ne_false hcc] at hBrev
    have := congrArg List.length hBrev
    simp at this
    have hle := (List.dropWhile_sublist (p := goIsSpace) (l := t)).length_le
    omega
  have hd : (X ++ B).reverse.dropWhile goIsSpace = (X ++ B).reverse := by
    rw [List.reverse_append, ht, List.cons_append]
    simp [List.dropWhile_cons, hc]
  unfold goTrimRight
  rw [hd, List.reverse_reverse]

/-- Leading trim keeps a text that starts with a hyphen. -/
theorem goTrimLeft_dash (l : List Char) : goTrimLeft ('-' :: l) = '-' :: l := by
  simp [goTrimLeft, List.dropWhile_cons]
  intro h
  cases h

/-- A text that starts with the `---` delimiter still starts with it after
`strings.TrimSpace`. -/
theorem isPrefixOf_goTrimSpace (content : List Char) (h : openDelim <+: content) :
    openDelim.isPrefixOf (goTrimSpace content) = true := by
  obtain ⟨r, hr⟩ := h
  subst hr
  rw [List.isPrefixOf_iff_prefix]
  have hleft : goTrimLeft (openDelim ++ r) = openDelim ++ r := by
    simpa [openDelim] using goTrimLeft_dash ('-' :: '-' :: r)
  unfold goTrimSpace
  rw [hleft]
  unfold goTrimRight
  rw [List.reverse_append, List.dropWhile_append]
  by_cases he : (r.reverse.dropWhile goIsSpace).isEmpty = true
  · rw [if_pos he]
    have : openDelim.reverse.dropWhile goIsSpace = openDelim.reverse := by decide
    rw [this, List.reverse_reverse]
  · rw [if_neg he]
    rw [List.reverse_append, List.reverse_reverse]
    exact ⟨_, rfl⟩

/-- In a rendered document the first occurrence of `"\n---"` is at the final
newline of the (newline-terminated, `"\n---"`-free) serialized metadata,
immediately before the closing delimiter. -/
theorem findSub_closePat (Y T : List Char) (hY : Y ≠ [])
    (hlast : Y.getLast? = some '\n') (hni : ¬ closePat <:+: Y) :
    findSub closePat (Y ++ '-' :: '-' :: '-' :: T) = some (Y.length - 1) := by
  induction Y with
  | nil => exact absurd rfl hY
  | cons c Yt ih =>
    cases Yt with
    | nil =>
      have hcn : c = '\n' := by simpa using hlast
      subst hcn
      simp [findSub, closePat, List.isPrefixOf]
    | cons c2 Y2 =>
      have hlast' : (c2 :: Y2).getLast? = some '\n' := by
        rw [← List.getLast?_cons_cons (a := c)]
        exact hlast
      have hni' : ¬ closePat <:+: (c2 :: Y2) := fun hi => hni (List.infix_cons hi)
      have ihr := ih (by simp) hlast' hni'
      have hnp : closePat.isPrefixOf (c :: ((c2 :: Y2) ++ '-' :: '-' :: '-' :: T)) = false := by
        by_contra hcc
        have hp := List.isPrefixOf_iff_prefix.mp (eq_true_of_ne_false hcc)
        obtain ⟨t, htt⟩ := hp
        rw [closePat] at htt
        simp only [List.cons_append, List.cons.injEq] at htt
        obtain ⟨hcn, htt⟩ := htt
        cases Y2 with
        | nil =>
          have : c2 = '\n' := by simpa using hlast'
          subst this
          simp at htt
        | cons c3 Y3 =>
          cases Y3 with
          | nil =>
            have : c3 = '\n' := by simpa using hlast'
            subst this
            simp at htt
          | cons c4 Y4 =>
            simp only [List.cons_append, List.cons.injEq] at htt
            obtain ⟨h2, h3, h4, _⟩ := htt
            exact hni (List.IsPrefix.isInfix ⟨Y4, by subst hcn h2 h3 h4; rfl⟩)
      have hstep : findSub closePat ((c :: (c2 :: Y2)) ++ '-' :: '-' :: '-' :: T) =
          (findSub closePat ((c2 :: Y2) ++ '-' :: '-' :: '-' :: T)).map (· + 1) := by
        rw [List.cons_append]
        unfold findSub
        rw [hnp]
        rfl
      rw [hstep, ihr]
      simp

/-- Parse of any document whose trimmed form is an opening delimiter line,
a serialized-metadata block `Y` (newline-terminated, free of `"\n---"`), a
closing delimiter and a tail `T`. -/
theorem parseFrontmatter_core (content Y T : List Char) (hY : Y ≠ [])
    (hlast : Y.getLast? = some '\n') (hni : ¬ closePat <:+: Y)
    (htrim : goTrimSpace content =
      '-' :: '-' :: '-' :: '\n' :: (Y ++ '-' :: '-' :: '-' :: T)) :
    parseFrontmatter content = (Y.dropLast, skipNewline T) := by
  have hYlen : 0 < Y.length := List.length_pos.mpr hY
  have hpre : openDelim.isPrefixOf (goTrimSpace content) = true := by
    rw [htrim]
    simp [openDelim, List.isPrefixOf]
  have hdrop3 : (goTrimSpace content).drop 3 = '\n' :: (Y ++ '-' :: '-' :: '-' :: T) := by
    rw [htrim]
    rfl
  have hskip : skipNewline ((goTrimSpace content).drop 3) = Y ++ '-' :: '-' :: '-' :: T := by
    rw [hdrop3]
    simp [skipNewline]
  have hfind : findSub closePat (Y ++ '-' :: '-' :: '-' :: T) = some (Y.length - 1) :=
    findSub_closePat Y T hY hlast hni
  have htake : (Y ++ '-' :: '-' :: '-' :: T).take (Y.length - 1) = Y.dropLast := by
    rw [List.take_append_of_le_length (by omega), ← List.dropLast_eq_take]
  have harith : Y.length - 1 + 4 = Y.length + 3 := by omega
  have hdrop : (Y ++ '-' :: '-' :: '-' :: T).drop (Y.length - 1 + 4) = T := by
    rw [harith]
    simp
  simp only [parseFrontmatter, hpre, if_true, hskip, hfind, htake, hdrop]

end FrontmatterLemmas

/-- C5 (amended): rendering any newline-terminated, non-empty serialized
metadata `Y` that contains no `"\n---"` occurrence together with any body `B`
that has no trailing whitespace, and parsing the result, returns the metadata
up to its final (boundary) newline and the body exactly; the claim as stated
— body returned verbatim for *every* body — fails for bodies with trailing
whitespace (see the counterexample). -/
theorem parseFrontmatter_renderFrontmatter (Y B : List Char) (hY : Y ≠ [])
    (hlast : Y.getLast? = some '\n') (hni : ¬ closePat <:+: Y)
    (hB : goTrimRight B = B) :
    parseFrontmatter (renderFrontmatter Y B) = (Y.dropLast, B) ∧
    Y.dropLast ++ ['\n'] = Y := by
  have hback : Y.dropLast ++ ['\n'] = Y := by
    have h1 := List.dropLast_append_getLast hY
    have h2 : Y.getLast hY = '\n' := by
      have := List.getLast?_eq_getLast Y hY
      rw [this] at hlast
      exact (Option.some.injEq _ _).mp hlast
    rw [← h2]
    exact h1
  refine ⟨?_, hback⟩
  by_cases hBe : B = []
  · subst hBe
    have hrender : renderFrontmatter Y [] =
        ('-' :: '-' :: '-' :: '\n' :: (Y ++ '-' :: '-' :: '-' :: [])) ++ ['\n'] := by
      simp [renderFrontmatter]
    have htrim : goTrimSpace (renderFrontmatter Y []) =
        '-' :: '-' :: '-' :: '\n' :: (Y ++ '-' :: '-' :: '-' :: []) := by
      unfold goTrimSpace
      rw [hrender]
      have hleft : goTrimLeft
          (('-' :: '-' :: '-' :: '\n' :: (Y ++ '-' :: '-' :: '-' :: [])) ++ ['\n']) =
          ('-' :: '-' :: '-' :: '\n' :: (Y ++ '-' :: '-' :: '-' :: [])) ++ ['\n'] := by
        rw [List.cons_append]
        exact goTrimLeft_dash _
      rw [hleft, goTrimRight_append_space _ '\n' (by decide)]
      apply goTrimRight_of_getLast _ '-'
      · rw [show ('-' :: '-' :: '-' :: '\n' :: (Y ++ '-' :: '-' :: '-' :: [])) =
          ['-', '-', '-', '\n'] ++ (Y ++ ['-', '-', '-']) from rfl]
        rw [List.getLast?_append, List.getLast?_append]
        rfl
      · decide
    have := parseFrontmatter_core (renderFrontmatter Y []) Y [] hY hlast hni htrim
    simpa [skipNewline] using this
  · have hrender : renderFrontmatter Y B =
        ('-' :: '-' :: '-' :: '\n' :: (Y ++ '-' :: '-' :: '-' :: '\n' :: [])) ++ B := by
      simp [renderFrontmatter, hBe]
    have htrim : goTrimSpace (renderFrontmatter Y B) =
        '-' :: '-' :: '-' :: '\n' :: (Y ++ '-' :: '-' :: '-' :: ('\n' :: B)) := by
      unfold goTrimSpace
      rw [hrender]
      have hleft : goTrimLeft
          (('-' :: '-' :: '-' :: '\n' :: (Y ++ '-' :: '-' :: '-' :: '\n' :: [])) ++ B) =
          ('-' :: '-' :: '-' :: '\n' :: (Y ++ '-' :: '-' :: '-' :: '\n' :: [])) ++ B := by
        rw [List.cons_append]
        exact goTrimLeft_dash _
      rw [hleft, goTrimRight_append_keep _ B hB hBe]
      simp
    have := parseFrontmatter_core (renderFrontmatter Y B) Y ('\n' :: B) hY hlast hni htrim
    simpa [skipNewline] using this

/-- Counterexample to C5 as stated: with metadata serialization `"k: v\n"`
and body `"hi\n"` (a body ending in a newline, far from the delimiter
boundary), the parsed body is `"hi"`, not the original body. -/
theorem parseFrontmatter_renderFrontmatter_cex :
    (parseFrontmatter (renderFrontmatter ("k: v\n".toList) ("hi\n".toList))).2 ≠
      "hi\n".toList := by
  decide

/-- Witness for C5 (amended) at metadata `"a: 1\n"` and body `"body"`. -/
theorem parseFrontmatter_renderFrontmatter_witness :
    ("a: 1\n".toList ≠ ([] : List Char) ∧ "a: 1\n".toList.getLast? = some '\n' ∧
      ¬ closePat <:+: "a: 1\n".toList ∧ goTrimRight "body".toList = "body".toList) ∧
    (parseFrontmatter (renderFrontmatter ("a: 1\n".toList) ("body".toList)) =
      ("a: 1".toList, "body".toList) ∧
      "a: 1".toList ++ ['\n'] = "a: 1\n".toList) :=
  ⟨⟨by decide, by decide, by decide, by decide⟩,
    parseFrontmatter_renderFrontmatter ("a: 1\n".toList) ("body".toList)
      (by decide) (by decide) (by decide) (by decide)⟩

/-- C6 (amended): when the *whitespace-trimmed* text does not start with the
three-hyphen delimiter, `ParseFrontmatter` returns empty metadata and the
original text; the claim as stated — about the text's own first characters —
fails on texts with leading whitespace before the delimiter (see the
counterexample), because the code trims before testing the prefix. -/
theorem parseFrontmatter_no_open (content : List Char)
    (h : openDelim.isPrefixOf (goTrimSpace content) = false) :
    parseFrontmatter content = ([], content) := by
  simp only [parseFrontmatter, h]
  simp

/-- Counterexample to C6 as stated: `" ---\na: b\n---\nx"` does not begin
with the delimiter, yet it is split into metadata `"a: b"` and body `"x"`
rather than returned whole. -/
theorem parseFrontmatter_no_open_cex :
    openDelim.isPrefixOf (" ---\na: b\n---\nx".toList) = false ∧
    parseFrontmatter (" ---\na: b\n---\nx".toList) ≠
      ([], " ---\na: b\n---\nx".toList) := by
  decide

/-- Witness for C6 (amended) at the text `"hello"`. -/
theorem parseFrontmatter_no_open_witness :
    openDelim.isPrefixOf (goTrimSpace "hello".toList) = false ∧
    parseFrontmatter "hello".toList = ([], "hello".toList) :=
  ⟨by decide, parseFrontmatter_no_open ("hello".toList) (by decide)⟩

/-- C7 (amended): a text that begins with the opening delimiter and contains
no occurrence of a newline immediately followed by three hyphens (the code's
closing-delimiter search pattern) is returned whole with empty metadata; the
embedding is a total function, so no input errors.  The claim as stated —
conditioned on the absence of a closing delimiter *line* — fails, because the
code searches for the substring `"\n---"`, which also matches lines that
merely start with three hyphens (see the counterexample). -/
theorem parseFrontmatter_no_close (content : List Char)
    (h1 : openDelim <+: content) (h2 : ¬ closePat <:+: content) :
    parseFrontmatter content = ([], content) := by
  have hpre := isPrefixOf_goTrimSpace content h1
  have hrest : skipNewline ((goTrimSpace content).drop 3) <:+: content := by
    have hs1 : skipNewline ((goTrimSpace content).drop 3) <:+ (goTrimSpace content).drop 3 :=
      skipNewline_suffix _
    have hs2 : (goTrimSpace content).drop 3 <:+ goTrimSpace content :=
      List.drop_suffix _ _
    exact ((hs1.trans hs2).isInfix).trans (goTrimSpace_isInfix content)
  have hfind : findSub closePat (skipNewline ((goTrimSpace content).drop 3)) = none :=
    findSub_eq_none _ _ (fun hi => h2 (hi.trans hrest))
  simp only [parseFrontmatter, hpre, if_true, hfind]

/-- Counterexample to C7 as stated: `"---\nx\n--- y"` begins with the opening
delimiter and contains no line consisting of the delimiter after the first,
yet it is split into metadata `"x"` and body `" y"` rather than returned
whole. -/
theorem parseFrontmatter_no_close_cex :
    openDelim.isPrefixOf ("---\nx\n--- y".toList) = true ∧
    hasClosingDelimLine ("---\nx\n--- y".toList) = false ∧
    parseFrontmatter ("---\nx\n--- y".toList) ≠ ([], "---\nx\n--- y".toList) := by
  decide

/-- Witness for C7 (amended) at the text `"---\nx"`. -/
theorem parseFrontmatter_no_close_witness :
    (openDelim <+: "---\nx".toList ∧ ¬ closePat <:+: "---\nx".toList) ∧
    parseFrontmatter "---\nx".toList = ([], "---\nx".toList) :=
  ⟨⟨by decide, by decide⟩,
    parseFrontmatter_no_close ("---\nx".toList) (by decide) (by decide)⟩

section LockLemmas

/-- A retry-loop trace that runs the callback ends with the acquisition block:
acquire, run `fn`, remove the lock file, and return `fn`'s own result. -/
theorem winLoop_callback_run {ε : Type} (env : WinEnv) (te : ε) (fnErr : Option ε) :
    ∀ fuel i now dl, hasCallback (winLoop env te fnErr fuel i now dl) = true →
      ∃ pre, winLoop env te fnErr fuel i now dl =
        pre ++ [.acquire, .callbackRun fnErr, .removeLockFile, .ret fnErr] := by
  intro fuel
  induction fuel with
  | zero => intro i now dl h; simp [winLoop, hasCallback] at h
  | succ f ih =>
    intro i now dl h
    by_cases ho : env.openOk i = true
    · exact ⟨[], by simp [winLoop, ho]⟩
    · have ho' : env.openOk i = false := by simpa using ho
      by_cases hs : env.statOk i = true ∧ staleLockAgeMs < env.ageMs i
      · rw [winLoop] at h
        simp only [ho', Bool.false_eq_true, if_false, if_pos hs] at h
        simp only [hasCallback, List.any_cons, isCallbackEv, Bool.false_or] at h
        obtain ⟨pre, hp⟩ := ih (i + 1) now dl h
        exact ⟨.removeStale i :: pre, by rw [winLoop]; simp [ho', hs, hp]⟩
      · by_cases hd : dl < now
        · rw [winLoop] at h
          simp [ho', hs, hd, hasCallback, isCallbackEv] at h
        · rw [winLoop] at h
          simp only [ho', Bool.false_eq_true, if_false, if_neg hs, if_neg hd] at h
          simp only [hasCallback, List.any_cons, isCallbackEv, Bool.false_or] at h
          obtain ⟨pre, hp⟩ := ih (i + 1) (now + lockRetryIntervalMs) dl h
          exact ⟨.sleep lockRetryIntervalMs :: pre,
            by rw [winLoop]; simp [ho', hs, hd, hp]⟩

/-- A retry-loop trace that never runs the callback can only return the
distinguished timeout error. -/
theorem winLoop_no_callback_ret {ε : Type} (env : WinEnv) (te : ε) (fnErr : Option ε) :
    ∀ fuel i now dl r, hasCallback (winLoop env te fnErr fuel i now dl) = false →
      (winLoop env te fnErr fuel i now dl).getLast? = some (.ret r) → r = some te := by
  intro fuel
  induction fuel with
  | zero => intro i now dl r _ hr; simp [winLoop] at hr
  | succ f ih =>
    intro i now dl r h hr
    by_cases ho : env.openOk i = true
    · rw [winLoop] at h
      simp [ho, hasCallback, isCallbackEv] at h
    · have ho' : env.openOk i = false := by simpa using ho
      by_cases hs : env.statOk i = true ∧ staleLockAgeMs < env.ageMs i
      · rw [winLoop] at h hr
        simp only [ho', Bool.false_eq_true, if_false, if_pos hs] at h hr
        simp only [hasCallback, List.any_cons, isCallbackEv, Bool.false_or] at h
        cases hrec : winLoop env te fnErr f (i + 1) now dl with
        | nil => rw [hrec] at hr; simp at hr
        | cons b tl =>
          rw [hrec, List.getLast?_cons_cons] at hr
          exact ih (i + 1) now dl r h (by rw [hrec]; exact hr)
      · by_cases hd : dl < now
        · rw [winLoop] at hr
          simp only [ho', Bool.false_eq_true, if_false, if_neg hs, if_pos hd] at hr
          simp only [List.getLast?_singleton, Option.some.injEq, LockEv.ret.injEq] at hr
          exact hr.symm
        · rw [winLoop] at h hr
          simp only [ho', Bool.false_eq_true, if_false, if_neg hs, if_neg hd] at h hr
          simp only [hasCallback, List.any_cons, isCallbackEv, Bool.false_or] at h
          cases hrec : winLoop env te fnErr f (i + 1) (now + lockRetryIntervalMs) dl with
          | nil => rw [hrec] at hr; simp at hr
          | cons b tl =>
            rw [hrec, List.getLast?_cons_cons] at hr
            exact ih (i + 1) (now + lockRetryIntervalMs) dl r h
              (by rw [hrec]; exact hr)

end LockLemmas

section LockSysLemmas

/-- Summing a function of phases after a one-point update. -/
theorem sum_phase_update {n : Nat} (f : Fin n → WPhase) (w : Fin n) (v : WPhase)
    (g : WPhase → Nat) :
    ∑ u : Fin n, g (Function.update f w v u) =
      g v + ∑ u ∈ Finset.univ \ {w}, g (f u) := by
  have hfun : (fun u => g (Function.update f w v u)) =
      Function.update (fun u => g (f u)) w (g v) := by
    funext u
    by_cases hu : u = w
    · subst hu; simp [Function.update]
    · simp [Function.update, hu]
  calc ∑ u : Fin n, g (Function.update f w v u)
      = ∑ u : Fin n, Function.update (fun x => g (f x)) w (g v) u := by rw [hfun]
    _ = g v + ∑ u ∈ Finset.univ \ {w}, g (f u) :=
        Finset.sum_update_of_mem (Finset.mem_univ w) _ _

/-- Splitting a sum of a function of phases at one worker. -/
theorem sum_phase_split {n : Nat} (f : Fin n → WPhase) (w : Fin n) (g : WPhase → Nat) :
    ∑ u : Fin n, g (f u) = g (f w) + ∑ u ∈ Finset.univ \ {w}, g (f u) := by
  rw [← Finset.erase_eq]
  exact (Finset.add_sum_erase Finset.univ (fun u => g (f u)) (Finset.mem_univ w)).symm

/-- The invariant holds initially. -/
theorem inv_init (n : Nat) : SysInv (initSys n) := by
  constructor
  · intro w
    simp [inCS, initSys]
  · simp [initSys, phaseCnt]

/-- The invariant is preserved by every step. -/
theorem inv_step {n : Nat} {s s' : LockSys n} (h : LockStep s s') (hi : SysInv s) :
    SysInv s' := by
  obtain ⟨hcs, hcnt⟩ := hi
  cases h with
  | acquire w h1 h2 =>
    constructor
    · intro u
      by_cases hu : u = w
      · subst hu
        simp [inCS, Function.update]
      · have hp : Function.update s.phase w WPhase.locked u = s.phase u :=
          Function.update_noteq hu _ _
        simp only [inCS, hp]
        constructor
        · intro hcsu
          have hh := (hcs u).mp hcsu
          rw [h2] at hh
          cases hh
        · intro hsome
          exact absurd (by injection hsome with hh; exact hh.symm) hu
    · show s.counter = ∑ u : Fin n, phaseCnt (Function.update s.phase w WPhase.locked u)
      rw [sum_phase_update, hcnt, sum_phase_split s.phase w phaseCnt, h1]
      rfl
  | work w h1 =>
    have hw : s.holder = some w := (hcs w).mp (Or.inl h1)
    constructor
    · intro u
      by_cases hu : u = w
      · subst hu
        simp [inCS, Function.update, hw]
      · have hp : Function.update s.phase w WPhase.wrote u = s.phase u :=
          Function.update_noteq hu _ _
        simp only [inCS, hp]
        exact hcs u
    · show s.counter + 1 = ∑ u : Fin n, phaseCnt (Function.update s.phase w WPhase.wrote u)
      rw [sum_phase_update, hcnt, sum_phase_split s.phase w phaseCnt, h1]
      simp [phaseCnt]
      omega
  | release w h1 =>
    have hw : s.holder = some w := (hcs w).mp (Or.inr h1)
    constructor
    · intro u
      by_cases hu : u = w
      · subst hu
        simp [inCS, Function.update]
      · have hp : Function.update s.phase w WPhase.done u = s.phase u :=
          Function.update_noteq hu _ _
        simp only [inCS, hp]
        constructor
        · intro hcsu
          have hh := (hcs u).mp hcsu
          rw [hw] at hh
          exact absurd (by injection hh with h2; exact h2.symm) hu
        · intro hsome
          cases hsome
    · show s.counter = ∑ u : Fin n, phaseCnt (Function.update s.phase w WPhase.done u)
      rw [sum_phase_update, hcnt, sum_phase_split s.phase w phaseCnt, h1]
      rfl


/-- Every reachable state satisfies the invariant. -/
theorem inv_reach {n : Nat} {s : LockSys n} (h : SysReach n s) : SysInv s := by
  induction h with
  | refl => exact inv_init n
  | tail _ hstep ih => exact inv_step hstep ih

/-- A state with an unfinished worker always has an enabled step (deadlock
freedom). -/
theorem sys_progress {n : Nat} {s : LockSys n} (hi : SysInv s)
    (hw : ∃ w, s.phase w ≠ WPhase.done) : ∃ s', LockStep s s' := by
  obtain ⟨w, hw⟩ := hw
  cases hp : s.phase w with
  | start =>
    cases hh : s.holder with
    | none => exact ⟨_, LockStep.acquire s w hp hh⟩
    | some u =>
      have hcsu : inCS s u := (hi.1 u).mpr hh
      cases hcsu with
      | inl hl => exact ⟨_, LockStep.work s u hl⟩
      | inr hl => exact ⟨_, LockStep.release s u hl⟩
  | locked => exact ⟨_, LockStep.work s w hp⟩
  | wrote => exact ⟨_, LockStep.release s w hp⟩
  | done => exact absurd hp hw

end LockSysLemmas

/-- C2: under the interleaving semantics of N concurrent `WithLock` calls on
one directory (with `flock(LOCK_EX)` modelled by its kernel contract of
exclusive granting), (1) no two workers are ever simultaneously inside their
callbacks — callback execution is strictly serialized, so the concurrency
observed inside the critical section never exceeds 1; (2) in any reachable
state from which no step is possible, every one of the N callbacks has run
and the shared counter equals N; (3) every step increases the progress
measure by exactly one and (4) the measure is bounded by `3 * N`, so every
execution is finite and, with (2), every maximal execution ends with all N
callbacks having run; and (5) for `N > 0` a state with a worker inside the
critical section is reachable, so concurrency exactly 1 is attained. -/
theorem withLock_serialized (n : Nat) :
    (∀ s, SysReach n s → ∀ w w', inCS s w → inCS s w' → w = w') ∧
    (∀ s, SysReach n s → (∀ s', ¬ LockStep s s') →
      (∀ w, s.phase w = WPhase.done) ∧ s.counter = n) ∧
    (∀ s s' : LockSys n, LockStep s s' → sumRank s' = sumRank s + 1) ∧
    (∀ s : LockSys n, sumRank s ≤ 3 * n) ∧
    (0 < n → ∃ s, SysReach n s ∧ ∃ w, inCS s w) := by
  refine ⟨?_, ?_, ?_, ?_, ?_⟩
  · intro s hr w w' hw hw'
    have hi := inv_reach hr
    have h1 := (hi.1 w).mp hw
    have h2 := (hi.1 w').mp hw'
    rw [h1] at h2
    injection h2
  · intro s hr ht
    have hi := inv_reach hr
    have hdone : ∀ w, s.phase w = WPhase.done := by
      by_contra hc
      push_neg at hc
      obtain ⟨s', hs'⟩ := sys_progress hi hc
      exact ht s' hs'
    refine ⟨hdone, ?_⟩
    rw [hi.2, Finset.sum_congr rfl (fun w _ => by rw [hdone w])]
    simp [phaseCnt]
  · intro s s' hst
    cases hst with
    | acquire w h1 h2 =>
      show (∑ u : Fin n, phaseRank (Function.update s.phase w WPhase.locked u)) =
        sumRank s + 1
      rw [sum_phase_update, sumRank, sum_phase_split s.phase w phaseRank, h1]
      simp only [phaseRank]
      omega
    | work w h1 =>
      show (∑ u : Fin n, phaseRank (Function.update s.phase w WPhase.wrote u)) =
        sumRank s + 1
      rw [sum_phase_update, sumRank, sum_phase_split s.phase w phaseRank, h1]
      simp only [phaseRank]
      omega
    | release w h1 =>
      show (∑ u : Fin n, phaseRank (Function.update s.phase w WPhase.done u)) =
        sumRank s + 1
      rw [sum_phase_update, sumRank, sum_phase_split s.phase w phaseRank, h1]
      simp only [phaseRank]
      omega
  · intro s
    unfold sumRank
    calc ∑ w : Fin n, phaseRank (s.phase w) ≤ ∑ _w : Fin n, 3 :=
        Finset.sum_le_sum (fun w _ => by cases hp : s.phase w <;> simp [phaseRank])
      _ = 3 * n := by simp [Finset.sum_const, Finset.card_univ, mul_comm]
  · intro hn
    refine ⟨⟨Function.update (initSys n).phase ⟨0, hn⟩ WPhase.locked, some ⟨0, hn⟩,
      (initSys n).counter⟩, ?_, ⟨0, hn⟩, ?_⟩
    · exact Relation.ReflTransGen.single (LockStep.acquire (initSys n) ⟨0, hn⟩ rfl rfl)
    · exact Or.inl (by simp [Function.update])

/-- Witness for C2: the first acquisition step of two workers from the
initial state advances the progress measure by one. -/
theorem withLock_serialized_witness :
    LockStep (initSys 2)
      ⟨Function.update (initSys 2).phase (0 : Fin 2) WPhase.locked, some (0 : Fin 2),
        (initSys 2).counter⟩ ∧
    sumRank (⟨Function.update (initSys 2).phase (0 : Fin 2) WPhase.locked,
        some (0 : Fin 2), (initSys 2).counter⟩ : LockSys 2) =
      sumRank (initSys 2) + 1 :=
  ⟨LockStep.acquire (initSys 2) (0 : Fin 2) rfl rfl,
    (withLock_serialized 2).2.2.1 _ _ (LockStep.acquire (initSys 2) (0 : Fin 2) rfl rfl)⟩

/-- C8: `WithLock` returns exactly the callback's own result or error and
releases the lock before returning, and a failed acquisition returns the
acquisition error without running the callback.  Unix variant: the successful
trace is acquire, callback, advisory unlock, descriptor close, return of the
callback's result (first conjunct), and any acquisition failure returns that
first error with no callback event (second conjunct).  Windows variant: any
trace that runs the callback ends with acquire, callback, lock-file removal,
return of the callback's result (third conjunct); a trace that never runs the
callback can only return the timeout error (fourth conjunct); and an
`EnsureDir` failure returns immediately (fifth conjunct). -/
theorem withLock_result_release (ε : Type) (flt : UnixFaults ε) (fnErr : Option ε)
    (env : WinEnv) (te : ε) :
    (flt.ensureDirErr = none → flt.openErr = none → flt.flockErr = none →
      unixWithLock flt fnErr =
        [.acquire, .callbackRun fnErr, .unlock, .closeFd, .ret fnErr]) ∧
    (∀ e, flt.firstErr = some e →
      hasCallback (unixWithLock flt fnErr) = false ∧
      (unixWithLock flt fnErr).getLast? = some (.ret (some e))) ∧
    (∀ fuel i now dl, hasCallback (winLoop env te fnErr fuel i now dl) = true →
      ∃ pre, winLoop env te fnErr fuel i now dl =
        pre ++ [.acquire, .callbackRun fnErr, .removeLockFile, .ret fnErr]) ∧
    (∀ fuel i now dl r, hasCallback (winLoop env te fnErr fuel i now dl) = false →
      (winLoop env te fnErr fuel i now dl).getLast? = some (.ret r) → r = some te) ∧
    (∀ e fuel now, winWithLock env (some e) te fnErr fuel now = [.ret (some e)]) := by
  refine ⟨?_, ?_, winLoop_callback_run env te fnErr, winLoop_no_callback_ret env te fnErr,
    fun e fuel now => rfl⟩
  · intro h1 h2 h3
    simp [unixWithLock, h1, h2, h3]
  · intro e he
    match h1 : flt.ensureDirErr with
    | some e1 =>
      simp only [UnixFaults.firstErr, h1, Option.some.injEq] at he
      subst he
      simp [unixWithLock, h1, hasCallback, isCallbackEv]
    | none =>
      match h2 : flt.openErr with
      | some e2 =>
        simp only [UnixFaults.firstErr, h1, h2, Option.some.injEq] at he
        subst he
        simp [unixWithLock, h1, h2, hasCallback, isCallbackEv]
      | none =>
        simp only [UnixFaults.firstErr, h1, h2] at he
        simp [unixWithLock, h1, h2, he, hasCallback, isCallbackEv]

/-- Witness for C8: a fault-free Unix acquisition whose callback fails with
error `5` — the callback's own error is returned after unlock and close. -/
theorem withLock_result_release_witness :
    ((⟨none, none, none⟩ : UnixFaults Nat).ensureDirErr = none) ∧
    unixWithLock (⟨none, none, none⟩ : UnixFaults Nat) (some 5) =
      [.acquire, .callbackRun (some 5), .unlock, .closeFd, .ret (some 5)] :=
  ⟨rfl,
    (withLock_result_release Nat ⟨none, none, none⟩ (some 5)
      ⟨fun _ => true, fun _ => true, fun _ => 0⟩ 0).1 rfl rfl rfl⟩

/-- C9: in the retry-loop variant, when the exclusive create fails, `os.Stat`
succeeds, and the lock file's age strictly exceeds the 30-second staleness
threshold, the iteration removes the lock file and retries immediately: the
attempt index advances without a sleep event, the clock `now` is unchanged,
the equation holds for every `now` and `deadline` (so the deadline test is
not even consulted), and the step itself produces no error event — the stale
lock is reclaimed, never surfaced to the caller. -/
theorem winLoop_stale_reclaim {ε : Type} (env : WinEnv) (te : ε) (fnErr : Option ε)
    (fuel i now deadline : Nat) (ho : env.openOk i = false)
    (hs : env.statOk i = true) (ha : staleLockAgeMs < env.ageMs i) :
    winLoop env te fnErr (fuel + 1) i now deadline =
      .removeStale i :: winLoop env te fnErr fuel (i + 1) now deadline := by
  rw [winLoop]
  simp [ho, hs, ha]

/-- Witness for C9 with the clock already past the deadline (`now = 20000`,
`deadline = 10000`): the stale lock (age 30001 ms) is still reclaimed and the
loop retries with the clock unchanged, instead of timing out. -/
theorem winLoop_stale_reclaim_witness :
    ((⟨fun _ => false, fun _ => true, fun _ => 30001⟩ : WinEnv).openOk 0 = false ∧
      (⟨fun _ => false, fun _ => true, fun _ => 30001⟩ : WinEnv).statOk 0 = true ∧
      staleLockAgeMs <
        (⟨fun _ => false, fun _ => true, fun _ => 30001⟩ : WinEnv).ageMs 0 ∧
      10000 < 20000) ∧
    winLoop (⟨fun _ => false, fun _ => true, fun _ => 30001⟩ : WinEnv) (0 : Nat) none
      2 0 20000 10000 =
      .removeStale 0 ::
        winLoop (⟨fun _ => false, fun _ => true, fun _ => 30001⟩ : WinEnv) (0 : Nat) none
          1 1 20000 10000 :=
  ⟨⟨rfl, rfl, by decide, by decide⟩,
    winLoop_stale_reclaim _ 0 none 1 0 20000 10000 rfl rfl (by decide)⟩

/-- C1: if writing to or closing the temporary file fails during `AtomicWrite`,
the temporary file is deleted, the whole file system — in particular the target
path's prior content or absence — is unchanged, and the underlying error is
returned.  `hfresh` is `os.CreateTemp`'s guarantee that the temporary name is a
newly created file. -/
theorem atomicWrite_write_or_close_failure {δ ε : Type} (flt : WriteFaults ε δ)
    (fs : FSys δ ε) (path : String) (data : δ) (tmpName : String) (dInit : δ) (e : ε)
    (h1 : flt.ensureDirErr = none) (h2 : flt.createTempErr = none)
    (hf : flt.writeErr = some e ∨ (flt.writeErr = none ∧ flt.closeErr = some e))
    (hfresh : fs tmpName = .missing) :
    (atomicWrite flt fs path data tmpName dInit).2 = some e ∧
    (atomicWrite flt fs path data tmpName dInit).1 tmpName = .missing ∧
    (∀ q, (atomicWrite flt fs path data tmpName dInit).1 q = fs q) := by
  rcases hf with h3 | ⟨h3, h4⟩
  · unfold atomicWrite
    rw [h1, h2, h3]
    refine ⟨rfl, by simp [updFS], ?_⟩
    intro q
    by_cases hq : q = tmpName
    · subst hq; simp [updFS, hfresh]
    · simp [updFS, hq]
  · unfold atomicWrite
    rw [h1, h2, h3, h4]
    refine ⟨rfl, by simp [updFS], ?_⟩
    intro q
    by_cases hq : q = tmpName
    · subst hq; simp [updFS, hfresh]
    · simp [updFS, hq]

/-- Witness for C1 at a concrete input: a failing `tmp.Write` with error `3`
on an empty file system. -/
theorem atomicWrite_write_or_close_failure_witness :
    ((⟨none, none, some 3, 0, none, none⟩ : WriteFaults Nat Nat).ensureDirErr = none) ∧
    ((fun _ => FileEntry.missing : FSys Nat Nat) "t" = .missing) ∧
    ((atomicWrite (⟨none, none, some 3, 0, none, none⟩ : WriteFaults Nat Nat)
        (fun _ => FileEntry.missing) "p" 7 "t" 0).2 = some 3 ∧
      (atomicWrite (⟨none, none, some 3, 0, none, none⟩ : WriteFaults Nat Nat)
        (fun _ => FileEntry.missing) "p" 7 "t" 0).1 "t" = .missing ∧
      (∀ q, (atomicWrite (⟨none, none, some 3, 0, none, none⟩ : WriteFaults Nat Nat)
        (fun _ => FileEntry.missing) "p" 7 "t" 0).1 q = (fun _ => FileEntry.missing) q)) :=
  ⟨rfl, rfl,
    atomicWrite_write_or_close_failure _ _ "p" 7 "t" 0 3 rfl rfl (Or.inl rfl) rfl⟩

/-- C4: reading a non-existent path succeeds and leaves the caller-supplied
destination in the zero/empty state it was passed in. -/
theorem readYAML_missing {δ ε σ : Type} (dec : δ → Except ε σ) (fs : FSys δ ε)
    (path : String) (dest0 : σ) (h : fs path = .missing) :
    readYAML dec fs path dest0 = .ok dest0 := by
  unfold readYAML
  rw [h]

/-- Witness for C4: reading path `"p"` from the empty file system. -/
theorem readYAML_missing_witness :
    ((fun _ => FileEntry.missing : FSys Nat Nat) "p" = .missing) ∧
    readYAML (fun d => Except.ok d) (fun _ => FileEntry.missing : FSys Nat Nat) "p"
      (0 : Nat) = .ok 0 :=
  ⟨rfl, readYAML_missing (fun d => Except.ok d) _ "p" 0 rfl⟩

/-- C3: `AppendYAML` reads the existing sequence (empty when the file is
missing), appends the one new record, and writes the sequence back; in
particular five sequential appends to an initially missing path read back as
exactly those five records in append order. -/
theorem appendYAML_five {α δ ε : Type} (c : YamlCodec α δ ε) (flt : WriteFaults ε δ)
    (fs : FSys δ ε) (path : String) (tmpName : String) (dInit : δ)
    (hc : flt.clean) (henc : ∀ l : List α, ∃ d, c.enc l = .ok d) :
    (∀ (f : FSys δ ε) (l : List α) (item : α),
      readYAML c.dec f path ([] : List α) = .ok l →
      (appendYAML c flt f path item tmpName dInit).2 = none ∧
      readYAML c.dec (appendYAML c flt f path item tmpName dInit).1 path ([] : List α) =
        .ok (l ++ [item])) ∧
    (∀ a1 a2 a3 a4 a5 : α, fs path = .missing →
      readYAML c.dec (appendSeq c flt fs path [a1, a2, a3, a4, a5] tmpName dInit) path
        ([] : List α) = .ok [a1, a2, a3, a4, a5]) := by
  constructor
  · intro f l item hr
    exact appendYAML_read c flt f path item tmpName dInit l hc hr (henc (l ++ [item]))
  · intro a1 a2 a3 a4 a5 hm
    have h0 : readYAML c.dec fs path ([] : List α) = .ok ([] : List α) :=
      readYAML_missing c.dec fs path [] hm
    simpa using appendSeq_read c flt hc path tmpName dInit henc [a1, a2, a3, a4, a5] fs [] h0

/-- Witness for C3: five concrete appends with the identity codec on an
initially empty file system. -/
theorem appendYAML_five_witness :
    (⟨none, none, none, [], none, none⟩ : WriteFaults Nat (List Nat)).clean ∧
    ((fun _ => FileEntry.missing : FSys (List Nat) Nat) "p" = .missing) ∧
    readYAML idCodec.dec
      (appendSeq idCodec (⟨none, none, none, [], none, none⟩ : WriteFaults Nat (List Nat))
        (fun _ => FileEntry.missing) "p" [1, 2, 3, 4, 5] "t" []) "p" ([] : List Nat) =
      .ok [1, 2, 3, 4, 5] :=
  ⟨⟨rfl, rfl, rfl, rfl, rfl⟩, rfl,
    (appendYAML_five idCodec _ (fun _ => FileEntry.missing) "p" "t" []
      ⟨rfl, rfl, rfl, rfl, rfl⟩ (fun l => ⟨l, rfl⟩)).2 1 2 3 4 5 rfl⟩

/-- C10: if `AppendYAML`'s initial read fails — the path holds malformed data
(`dec` fails) or reading yields an I/O error other than non-existence — the
error is returned and the file system (hence the target file) is unchanged:
no write is attempted. -/
theorem appendYAML_read_failure {α δ ε : Type} (c : YamlCodec α δ ε)
    (flt : WriteFaults ε δ) (fs : FSys δ ε) (path : String) (item : α)
    (tmpName : String) (dInit : δ) (e : ε)
    (h : fs path = .ioError e ∨ (∃ d, fs path = .content d ∧ c.dec d = .error e)) :
    appendYAML c flt fs path item tmpName dInit = (fs, some e) := by
  have hr : readYAML c.dec fs path ([] : List α) = .error e := by
    rcases h with h | ⟨d, hd, hdec⟩
    · unfold readYAML; rw [h]
    · unfold readYAML; rw [hd]; exact hdec
  unfold appendYAML
  rw [hr]

/-- Witness for C10: a file holding the malformed content `[7]` (no tag),
which `tagCodec.dec` rejects with error `9`. -/
theorem appendYAML_read_failure_witness :
    ((fun _ => FileEntry.content [7] : FSys (List Nat) Nat) "p" = .content [7] ∧
      tagCodec.dec [7] = .error 9) ∧
    appendYAML tagCodec
      (⟨none, none, none, [], none, none⟩ : WriteFaults Nat (List Nat))
      (fun _ => FileEntry.content [7]) "p" 1 "t" [] =
      ((fun _ => FileEntry.content [7]), some 9) := by
  refine ⟨⟨rfl, rfl⟩, ?_⟩
  exact appendYAML_read_failure tagCodec _ _ "p" 1 "t" [] 9 (Or.inr ⟨[7], rfl, rfl⟩)
